import Mathlib

/-!
Shallow embedding of the `ffs` Starlark tokenizer and parser
(`src/starlark/token.h`, `src/starlark/tokenizer.h`, `src/starlark/parser.h`).

The input text is modelled as a `List Char`; the C++ tokenizer's byte cursor
`pos_` into an immutable `input_` is modelled by passing around the remaining
suffix `input_.substr(pos_)` of the input, so "the cursor advances by k" reads
as "the suffix loses its first k characters".  Fallible C++ functions
returning `std::optional` become Lean functions returning `Option`.
The C++ `while` loops become recursions; the loops of `tokenize` (collecting
tokens) and of the parser, whose progress argument is that every non-Eof token
consumes at least one character, are given an explicit fuel argument, set to
`input.length + 1` at the entry points; fuel sufficiency is proved below.
-/

namespace Starlark

/-- Embeds `token::Punctuator` from token.h (all 41 enumerators, including
`DoubleSlashEquals`, which the tokenizer's table never produces). -/
inductive Punctuator where
  | Plus | Minus | Star | Slash | DoubleSlash | Percent | DoubleStar
  | Tilde | Ampersand | Pipe | Caret | LShift | RShift
  | Dot | Comma | Equals | Semicolon | Colon
  | LParen | RParen | LBracket | RBracket | LBrace | RBrace
  | Less | Greater | GreaterOrEqual | LessOrEqual | EqualEqual | NotEqual
  | PlusEquals | MinusEquals | StarEquals | SlashEquals | DoubleSlashEquals
  | PercentEquals | AmpersandEquals | PipeEquals | CaretEquals
  | LShiftEquals | RShiftEquals
  deriving DecidableEq, Repr

/-- Embeds `token::Keyword` from token.h (15 reserved words). -/
inductive Keyword where
  | And | Else | Load | Break | For | Not | Continue | If | Or
  | Def | In | Pass | Elif | Lambda | Return
  deriving DecidableEq, Repr

/-- Embeds `starlark::Token`: the variant over punctuator, keyword, identifier,
string literal and Eof from token.h. -/
inductive Token where
  | punct (p : Punctuator)
  | kw (k : Keyword)
  | ident (name : List Char)
  | str (value : List Char)
  | eof
  deriving DecidableEq, Repr

/-- Mirrors `Tokenizer::is_whitespace`. -/
def is_whitespace (c : Char) : Bool :=
  c = ' ' || c = '\t' || c = '\n' || c = '\r'

/-- Mirrors `Tokenizer::is_alpha` (letters and underscore). -/
def is_alpha (c : Char) : Bool :=
  ('a' ≤ c && c ≤ 'z') || ('A' ≤ c && c ≤ 'Z') || c = '_'

/-- Mirrors `Tokenizer::is_digit`. -/
def is_digit (c : Char) : Bool := '0' ≤ c && c ≤ '9'

/-- An identifier-continuation character: `is_alpha(c) || is_digit(c)`
as used in the scan loop of `Tokenizer::tokenize_identifier`. -/
def is_ident_char (c : Char) : Bool := is_alpha c || is_digit c

/-- Mirrors `Tokenizer::skip_comments_and_whitespace`, with the `continue_skipping`
loop flattened into a single character-at-a-time recursion whose Bool state
records whether the cursor currently sits inside a `#` line comment.
In comment state a `'\n'` ends the comment; since `'\n'` is whitespace the
C++ code's subsequent whitespace pass consumes it, so the recursion consumes
it directly when leaving the comment. -/
def skip_cw : Bool → List Char → List Char
  | _, [] => []
  | true, c :: t => if c = '\n' then skip_cw false t else skip_cw true t
  | false, c :: t =>
    if is_whitespace c then skip_cw false t
    else if c = '#' then skip_cw true t
    else c :: t

/-- Entry to the whitespace/comment skipper (comment state initially off). -/
def skip_comments_and_whitespace (input : List Char) : List Char :=
  skip_cw false input

/-- The scan loop of `Tokenizer::tokenize_multiline_string`: `input` is the
text just past the opening `"""`.  The C++ loop advances while at least three
characters remain and the three-character window is not `"""`; if fewer than
three characters remain at exit the string is unterminated (failure),
otherwise the characters before the window are the value and the cursor
skips the closing `"""`. -/
def multiline_scan : List Char → Option (List Char × List Char)
  | [] => none
  | [_] => none
  | [_, _] => none
  | c :: d :: e :: t =>
    if c = '"' ∧ d = '"' ∧ e = '"' then some ([], t)
    else (multiline_scan (d :: e :: t)).map fun vr => (c :: vr.1, vr.2)

/-- Mirrors `Tokenizer::tokenize_multiline_string`; `input` is already past the
opening `"""` (the caller advanced the cursor by three). -/
def tokenize_multiline_string (input : List Char) : Option (Token × List Char) :=
  (multiline_scan input).map fun vr => (Token.str vr.1, vr.2)

/-- Mirrors `Tokenizer::tokenize_string`; `input` is the text just past the opening
`"`.  Scans to the next `"` (the characters before it are the value);
reaching end of input first is a failure. -/
def tokenize_string (input : List Char) : Option (Token × List Char) :=
  match input.dropWhile (· ≠ '"') with
  | '"' :: rest => some (Token.str (input.takeWhile (· ≠ '"')), rest)
  | _ => none

/-- The keyword table of `Tokenizer::tokenize_identifier`: the chain of
string comparisons, in source order. -/
def keyword_of (name : List Char) : Option Keyword :=
  if name = "and".data then some Keyword.And
  else if name = "else".data then some Keyword.Else
  else if name = "load".data then some Keyword.Load
  else if name = "break".data then some Keyword.Break
  else if name = "for".data then some Keyword.For
  else if name = "not".data then some Keyword.Not
  else if name = "continue".data then some Keyword.Continue
  else if name = "if".data then some Keyword.If
  else if name = "or".data then some Keyword.Or
  else if name = "def".data then some Keyword.Def
  else if name = "in".data then some Keyword.In
  else if name = "pass".data then some Keyword.Pass
  else if name = "elif".data then some Keyword.Elif
  else if name = "lambda".data then some Keyword.Lambda
  else if name = "return".data then some Keyword.Return
  else none

/-- Mirrors `Tokenizer::tokenize_identifier`: scan the maximal run of
alphanumeric/underscore characters, then classify it via the keyword table;
no exact match yields an `Identifier`.  Always succeeds (the caller
guarantees the first character is alphabetic or underscore). -/
def tokenize_identifier (input : List Char) : Token × List Char :=
  (match keyword_of (input.takeWhile is_ident_char) with
   | some k => Token.kw k
   | none => Token.ident (input.takeWhile is_ident_char),
   input.dropWhile is_ident_char)

/-- The punctuator table of `Tokenizer::tokenize_punctuator` after its
one-time sort by spelling length, longest first (the sort is by length only,
so entries of equal length stay mutually unordered; since two distinct
spellings of the same length cannot both match at one position, any order
within a length class yields the same behavior — entries here keep the
source table's relative order within each length). -/
def punctuator_table : List (List Char × Punctuator) :=
  [(['<', '<', '='], Punctuator.LShiftEquals),
   (['>', '>', '='], Punctuator.RShiftEquals),
   (['/', '/'], Punctuator.DoubleSlash),
   (['*', '*'], Punctuator.DoubleStar),
   (['<', '<'], Punctuator.LShift),
   (['>', '>'], Punctuator.RShift),
   (['=', '='], Punctuator.EqualEqual),
   (['!', '='], Punctuator.NotEqual),
   (['+', '='], Punctuator.PlusEquals),
   (['-', '='], Punctuator.MinusEquals),
   (['*', '='], Punctuator.StarEquals),
   (['/', '='], Punctuator.SlashEquals),
   (['%', '='], Punctuator.PercentEquals),
   (['&', '='], Punctuator.AmpersandEquals),
   (['|', '='], Punctuator.PipeEquals),
   (['^', '='], Punctuator.CaretEquals),
   (['<', '='], Punctuator.LessOrEqual),
   (['>', '='], Punctuator.GreaterOrEqual),
   (['+'], Punctuator.Plus),
   (['-'], Punctuator.Minus),
   (['*'], Punctuator.Star),
   (['/'], Punctuator.Slash),
   (['%'], Punctuator.Percent),
   (['&'], Punctuator.Ampersand),
   (['|'], Punctuator.Pipe),
   (['^'], Punctuator.Caret),
   (['.'], Punctuator.Dot),
   ([','], Punctuator.Comma),
   (['='], Punctuator.Equals),
   ([';'], Punctuator.Semicolon),
   ([':'], Punctuator.Colon),
   (['('], Punctuator.LParen),
   ([')'], Punctuator.RParen),
   (['['], Punctuator.LBracket),
   ([']'], Punctuator.RBracket),
   (['\x7b'], Punctuator.LBrace),
   (['\x7d'], Punctuator.RBrace),
   (['<'], Punctuator.Less),
   (['>'], Punctuator.Greater),
   (['~'], Punctuator.Tilde)]

/-- Mirrors `Tokenizer::tokenize_punctuator`: return the first table entry whose
spelling matches at the cursor, advancing by the spelling's length; if no
spelling matches, fail. -/
def tokenize_punctuator (input : List Char) : Option (Token × List Char) :=
  match punctuator_table.find? (fun sp => input.take sp.1.length = sp.1) with
  | some sp => some (Token.punct sp.2, input.drop sp.1.length)
  | none => none

/-- Mirrors `Tokenizer::tokenize` (one token): skip whitespace/comments; at end of
input produce `Eof`; a `"""` window starts a multiline string; a `"` starts a
string; an alphabetic/underscore character starts an identifier; anything
else is tried as a punctuator. -/
def tokenize1 (input : List Char) : Option (Token × List Char) :=
  match skip_comments_and_whitespace input with
  | [] => some (Token.eof, [])
  | c :: rest =>
    if (c :: rest).take 3 = ['"', '"', '"'] then
      tokenize_multiline_string ((c :: rest).drop 3)
    else if c = '"' then
      tokenize_string rest
    else if is_alpha c then
      some (tokenize_identifier (c :: rest))
    else
      tokenize_punctuator (c :: rest)

/-- The collection loop of `starlark::tokenize`: pull tokens until `Eof`
(success, `Eof` not included) or a tokenizer failure (overall failure).
The fuel argument bounds the number of iterations; `tokenize_all` supplies
`input.length + 1`, which is proved sufficient below since every non-Eof
token consumes at least one character. -/
def tokenize_go : Nat → List Char → Option (List Token)
  | 0, _ => none
  | fuel + 1, input =>
    match tokenize1 input with
    | none => none
    | some (Token.eof, _) => some []
    | some (t, rest) => (tokenize_go fuel rest).map (t :: ·)

/-- Mirrors `starlark::tokenize(input)`: collect all tokens. -/
def tokenize_all (input : List Char) : Option (List Token) :=
  tokenize_go (input.length + 1) input

/-- Embeds `starlark::LoadStmt` from parser.h. -/
structure LoadStmt where
  module_name : List Char
  symbols : List (List Char × List Char)
  deriving DecidableEq, Repr

/-- Embeds `starlark::Statement` (a variant with the single alternative `LoadStmt`). -/
inductive Statement where
  | load (s : LoadStmt)
  deriving DecidableEq, Repr

/-- Embeds `starlark::Program`. -/
structure Program where
  statements : List Statement
  deriving DecidableEq, Repr

/-- The symbol loop of `Parser::parse_load_stmt` (steps after `'('` and the
module-name string have been consumed): each iteration pulls a token that
must be a punctuator — `)` exits the loop, `,` demands a symbol, anything
else fails; after a `,`, a string literal appends `(value, value)`, an
identifier demands `=` and then a string literal and appends
`(identifier, value)`, and any other token (or end of input, or a tokenizer
failure) fails.  The parser pulls tokens straight from the tokenizer, so the
state is the remaining input text; fuel bounds the iterations and
`parse_load_stmt` supplies `length + 1` (sufficient: each iteration consumes
at least the comma's character). -/
def parse_symbols :
    Nat → List Char → List (List Char × List Char) →
    Option (List (List Char × List Char) × List Char)
  | 0, _, _ => none
  | fuel + 1, input, symbols =>
    match tokenize1 input with
    | none => none
    | some (Token.punct Punctuator.RParen, rest) => some (symbols, rest)
    | some (Token.punct Punctuator.Comma, rest) =>
      match tokenize1 rest with
      | some (Token.str v, rest2) =>
        parse_symbols fuel rest2 (symbols ++ [(v, v)])
      | some (Token.ident name, rest2) =>
        match tokenize1 rest2 with
        | some (Token.punct Punctuator.Equals, rest3) =>
          match tokenize1 rest3 with
          | some (Token.str v, rest4) =>
            parse_symbols fuel rest4 (symbols ++ [(name, v)])
          | _ => none
        | _ => none
      | _ => none
    | _ => none

/-- Mirrors `Parser::parse_load_stmt` (the `load` keyword was consumed by the
caller): require `(`, then a string literal giving the module name, then the
symbol loop; after the loop an empty symbol list is a failure, otherwise the
`LoadStmt` is built. -/
def parse_load_stmt (input : List Char) : Option (LoadStmt × List Char) :=
  match tokenize1 input with
  | some (Token.punct Punctuator.LParen, rest) =>
    match tokenize1 rest with
    | some (Token.str module_name, rest2) =>
      match parse_symbols (rest2.length + 1) rest2 [] with
      | some (symbols, rest3) =>
        if symbols = [] then none
        else some ({ module_name := module_name, symbols := symbols }, rest3)
      | none => none
    | _ => none
  | _ => none

/-- The statement loop of `Parser::parse`: pull a token; `Eof` returns the
program built so far; keyword `load` runs `parse_load_stmt` (its failure is
the parse's failure) and appends the statement; any other keyword, any other
token kind, and any tokenizer failure all yield overall failure.  Fuel bounds
the iterations; `parse` supplies `length + 1` (sufficient: each load
statement consumes at least the `load` keyword's characters). -/
def parse_loop : Nat → List Char → List Statement → Option Program
  | 0, _, _ => none
  | fuel + 1, input, statements =>
    match tokenize1 input with
    | none => none
    | some (Token.eof, _) => some { statements := statements }
    | some (Token.kw Keyword.Load, rest) =>
      match parse_load_stmt rest with
      | none => none
      | some (stmt, rest2) =>
        parse_loop fuel rest2 (statements ++ [Statement.load stmt])
    | some (Token.kw _, _) => none
    | some _ => none

/-- Mirrors `starlark::parse(input)`: run the statement loop on the whole input with
an empty program. -/
def parse (input : List Char) : Option Program :=
  parse_loop (input.length + 1) input []

/-! ### Supporting lemmas: cursor progress and fuel sufficiency -/

lemma length_dropWhile_le (p : Char → Bool) :
    ∀ l : List Char, (l.dropWhile p).length ≤ l.length
  | [] => Nat.le_refl _
  | a :: t => by
    by_cases h : p a
    · rw [List.dropWhile_cons_of_pos h]
      exact Nat.le_succ_of_le (length_dropWhile_le p t)
    · rw [List.dropWhile_cons_of_neg h]

lemma skip_cw_length : ∀ (b : Bool) (l : List Char), (skip_cw b l).length ≤ l.length
  | false, [] => Nat.le_refl _
  | true, [] => Nat.le_refl _
  | true, _ :: t => by
    simp only [skip_cw]
    split
    · exact Nat.le_succ_of_le (skip_cw_length false t)
    · exact Nat.le_succ_of_le (skip_cw_length true t)
  | false, _ :: t => by
    simp only [skip_cw]
    split
    · exact Nat.le_succ_of_le (skip_cw_length false t)
    · split
      · exact Nat.le_succ_of_le (skip_cw_length true t)
      · exact Nat.le_refl _

lemma multiline_scan_length :
    ∀ (s v r : List Char), multiline_scan s = some (v, r) → r.length + 3 ≤ s.length
  | [], _, _, h => by simp [multiline_scan] at h
  | [_], _, _, h => by simp [multiline_scan] at h
  | [_, _], _, _, h => by simp [multiline_scan] at h
  | c :: d :: e :: t, v, r, h => by
    simp only [multiline_scan] at h
    split at h
    · rw [Option.some.injEq, Prod.mk.injEq] at h
      obtain ⟨-, rfl⟩ := h
      simp only [List.length_cons]
      omega
    · rw [Option.map_eq_some'] at h
      obtain ⟨⟨v', r'⟩, hscan, heq⟩ := h
      rw [Prod.mk.injEq] at heq
      obtain ⟨-, rfl⟩ := heq
      have := multiline_scan_length (d :: e :: t) v' r' hscan
      simp only [List.length_cons] at this ⊢
      omega

lemma tokenize_string_length (s : List Char) (t : Token) (r : List Char)
    (h : tokenize_string s = some (t, r)) : r.length < s.length := by
  unfold tokenize_string at h
  split at h
  next rest heq =>
    rw [Option.some.injEq, Prod.mk.injEq] at h
    obtain ⟨-, rfl⟩ := h
    have h1 : ('"' :: rest).length ≤ s.length := heq ▸ length_dropWhile_le _ s
    simp only [List.length_cons] at h1
    omega
  next => exact absurd h (by simp)

lemma punctuator_table_spelling_pos :
    ∀ sp ∈ punctuator_table, 0 < sp.1.length := by decide

/-- Progress for one call of `Tokenizer::tokenize`: the remaining input
never grows, and producing any token other than `Eof` strictly consumes
input. -/
lemma tokenize1_length (input : List Char) (t : Token) (rest : List Char)
    (h : tokenize1 input = some (t, rest)) :
    rest.length ≤ input.length ∧ (t ≠ Token.eof → rest.length < input.length) := by
  have hskip : (skip_comments_and_whitespace input).length ≤ input.length :=
    skip_cw_length false input
  unfold tokenize1 at h
  split at h
  · -- skip result is empty: Eof
    rw [Option.some.injEq, Prod.mk.injEq] at h
    obtain ⟨rfl, rfl⟩ := h
    exact ⟨Nat.zero_le _, fun hne => absurd rfl hne⟩
  next c cs heq =>
    rw [heq] at hskip
    have hlen : cs.length + 1 ≤ input.length := by simpa using hskip
    split at h
    · -- multiline string
      next h3 =>
      unfold tokenize_multiline_string at h
      rw [Option.map_eq_some'] at h
      obtain ⟨vr, hscan, heq2⟩ := h
      rw [Prod.mk.injEq] at heq2
      obtain ⟨rfl, rfl⟩ := heq2
      have hscan' : multiline_scan ((c :: cs).drop 3) = some (vr.1, vr.2) := by
        rwa [Prod.mk.eta]
      have := multiline_scan_length _ vr.1 vr.2 hscan'
      rw [List.length_drop] at this
      simp only [List.length_cons] at this
      constructor
      · omega
      · intro _; omega
    · split at h
      · -- single-quoted string
        have := tokenize_string_length cs t rest h
        constructor
        · omega
        · intro _; omega
      · split at h
        · -- identifier
          next halpha =>
          rw [Option.some.injEq] at h
          have hrest : (c :: cs).dropWhile is_ident_char = rest := by
            have := congrArg Prod.snd h
            simpa [tokenize_identifier] using this
          have hc : is_ident_char c = true := by
            simp [is_ident_char, halpha]
          rw [List.dropWhile_cons_of_pos hc] at hrest
          have := length_dropWhile_le is_ident_char cs
          rw [hrest] at this
          constructor
          · omega
          · intro _; omega
        · -- punctuator
          unfold tokenize_punctuator at h
          split at h
          next sp heq2 =>
            rw [Option.some.injEq, Prod.mk.injEq] at h
            obtain ⟨rfl, rfl⟩ := h
            have hmem := List.mem_of_find?_eq_some heq2
            have hpred := List.find?_some heq2
            rw [decide_eq_true_eq] at hpred
            have hpos := punctuator_table_spelling_pos sp hmem
            have htake : ((c :: cs).take sp.1.length).length = sp.1.length := by
              rw [hpred]
            rw [List.length_take] at htake
            have hle : sp.1.length ≤ (c :: cs).length := by omega
            rw [List.length_drop]
            simp only [List.length_cons] at hle hlen ⊢
            constructor
            · omega
            · intro _; omega
          next => exact absurd h (by simp)

/-- The fuel given to the token-collection loop is irrelevant as long as it
exceeds the input length: the loop reaches `Eof` or a failure first. -/
lemma tokenize_go_congr :
    ∀ (f₁ f₂ : Nat) (input : List Char), input.length < f₁ → input.length < f₂ →
      tokenize_go f₁ input = tokenize_go f₂ input
  | 0, _, _, h₁, _ => absurd h₁ (Nat.not_lt_zero _).elim
  | _ + 1, 0, _, _, h₂ => absurd h₂ (Nat.not_lt_zero _).elim
  | f₁ + 1, f₂ + 1, input, h₁, h₂ => by
    have hgo : ∀ t rest, tokenize1 input = some (t, rest) → t ≠ Token.eof →
        tokenize_go f₁ rest = tokenize_go f₂ rest := by
      intro t rest hh hne
      have := (tokenize1_length input t rest hh).2 hne
      exact tokenize_go_congr f₁ f₂ rest (by omega) (by omega)
    simp only [tokenize_go]
    cases hh : tokenize1 input with
    | none => rfl
    | some tr =>
      obtain ⟨t, rest⟩ := tr
      cases t with
      | eof => rfl
      | punct p => dsimp only; rw [hgo _ _ hh (by simp)]
      | kw k => dsimp only; rw [hgo _ _ hh (by simp)]
      | ident name => dsimp only; rw [hgo _ _ hh (by simp)]
      | str v => dsimp only; rw [hgo _ _ hh (by simp)]

/-- The symbol loop leaves the cursor no earlier than it started. -/
lemma parse_symbols_length :
    ∀ (fuel : Nat) (input : List Char) (syms res : List (List Char × List Char))
      (rest : List Char),
      parse_symbols fuel input syms = some (res, rest) → rest.length ≤ input.length
  | 0, _, _, _, _, h => by cases h
  | fuel + 1, input, syms, res, rest, h => by
    simp only [parse_symbols] at h
    split at h
    · cases h
    next r₁ heq₁ =>
      -- RParen: loop exit
      rw [Option.some.injEq, Prod.mk.injEq] at h
      obtain ⟨-, rfl⟩ := h
      have := (tokenize1_length _ _ _ heq₁).2 (by simp)
      omega
    next r₁ heq₁ =>
      -- Comma
      have hr₁ := (tokenize1_length _ _ _ heq₁).2 (by simp)
      split at h
      next v r₂ heq₂ =>
        have hr₂ := (tokenize1_length _ _ _ heq₂).2 (by simp)
        have := parse_symbols_length fuel r₂ _ res rest h
        omega
      next name r₂ heq₂ =>
        have hr₂ := (tokenize1_length _ _ _ heq₂).2 (by simp)
        split at h
        next r₃ heq₃ =>
          have hr₃ := (tokenize1_length _ _ _ heq₃).2 (by simp)
          split at h
          next v r₄ heq₄ =>
            have hr₄ := (tokenize1_length _ _ _ heq₄).2 (by simp)
            have := parse_symbols_length fuel r₄ _ res rest h
            omega
          next => cases h
        next => cases h
      next => cases h
    · cases h

/-- Lemma: `Parser::parse_load_stmt` strictly consumes input on success. -/
lemma parse_load_stmt_length (input : List Char) (l : LoadStmt) (rest : List Char)
    (h : parse_load_stmt input = some (l, rest)) : rest.length < input.length := by
  unfold parse_load_stmt at h
  split at h
  next r₁ heq₁ =>
    have hr₁ := (tokenize1_length _ _ _ heq₁).2 (by simp)
    split at h
    next m r₂ heq₂ =>
      have hr₂ := (tokenize1_length _ _ _ heq₂).2 (by simp)
      split at h
      next syms r₃ heq₃ =>
        have hr₃ := parse_symbols_length _ _ _ _ _ heq₃
        split at h
        · cases h
        · rw [Option.some.injEq, Prod.mk.injEq] at h
          obtain ⟨-, rfl⟩ := h
          omega
      next => cases h
    next => cases h
  next => cases h

/-- On success, `Parser::parse_load_stmt` returns a non-empty symbol list
(the emptiness check after the loop). -/
lemma parse_load_stmt_symbols_ne (input : List Char) (l : LoadStmt) (rest : List Char)
    (h : parse_load_stmt input = some (l, rest)) : l.symbols ≠ [] := by
  unfold parse_load_stmt at h
  split at h
  next r₁ heq₁ =>
    split at h
    next m r₂ heq₂ =>
      split at h
      next syms r₃ heq₃ =>
        split at h
        next hempty => cases h
        next hempty =>
          rw [Option.some.injEq, Prod.mk.injEq] at h
          obtain ⟨rfl, -⟩ := h
          exact hempty
      next => cases h
    next => cases h
  next => cases h

/-- Fuel irrelevance for the symbol loop: each iteration consumes at least
the comma's character, so any fuel above the input length behaves alike. -/
lemma parse_symbols_congr :
    ∀ (f₁ f₂ : Nat) (input : List Char) (syms : List (List Char × List Char)),
      input.length < f₁ → input.length < f₂ →
      parse_symbols f₁ input syms = parse_symbols f₂ input syms
  | 0, _, _, _, h₁, _ => absurd h₁ (Nat.not_lt_zero _).elim
  | _ + 1, 0, _, _, _, h₂ => absurd h₂ (Nat.not_lt_zero _).elim
  | f₁ + 1, f₂ + 1, input, syms, h₁, h₂ => by
    simp only [parse_symbols]
    cases hh : tokenize1 input with
    | none => rfl
    | some tr =>
      obtain ⟨t, rest⟩ := tr
      cases t
      case punct p =>
        cases p
        case Comma =>
          dsimp only
          have hr : rest.length < input.length := (tokenize1_length _ _ _ hh).2 (by simp)
          cases hh₂ : tokenize1 rest with
          | none => rfl
          | some tr₂ =>
            obtain ⟨t₂, rest₂⟩ := tr₂
            cases t₂
            case str v =>
              dsimp only
              have hr₂ : rest₂.length < rest.length := (tokenize1_length _ _ _ hh₂).2 (by simp)
              exact parse_symbols_congr f₁ f₂ rest₂ _ (by omega) (by omega)
            case ident name =>
              dsimp only
              have hr₂ : rest₂.length < rest.length := (tokenize1_length _ _ _ hh₂).2 (by simp)
              cases hh₃ : tokenize1 rest₂ with
              | none => rfl
              | some tr₃ =>
                obtain ⟨t₃, rest₃⟩ := tr₃
                cases t₃
                case punct p₃ =>
                  cases p₃
                  case Equals =>
                    dsimp only
                    have hr₃ : rest₃.length < rest₂.length :=
                      (tokenize1_length _ _ _ hh₃).2 (by simp)
                    cases hh₄ : tokenize1 rest₃ with
                    | none => rfl
                    | some tr₄ =>
                      obtain ⟨t₄, rest₄⟩ := tr₄
                      cases t₄
                      case str v =>
                        dsimp only
                        have hr₄ : rest₄.length < rest₃.length :=
                          (tokenize1_length _ _ _ hh₄).2 (by simp)
                        exact parse_symbols_congr f₁ f₂ rest₄ _ (by omega) (by omega)
                      all_goals rfl
                  all_goals rfl
                all_goals rfl
            all_goals rfl
        all_goals rfl
      all_goals rfl

/-- Fuel irrelevance for the statement loop of `Parser::parse`. -/
lemma parse_loop_congr :
    ∀ (f₁ f₂ : Nat) (input : List Char) (stmts : List Statement),
      input.length < f₁ → input.length < f₂ →
      parse_loop f₁ input stmts = parse_loop f₂ input stmts
  | 0, _, _, _, h₁, _ => absurd h₁ (Nat.not_lt_zero _).elim
  | _ + 1, 0, _, _, _, h₂ => absurd h₂ (Nat.not_lt_zero _).elim
  | f₁ + 1, f₂ + 1, input, stmts, h₁, h₂ => by
    simp only [parse_loop]
    cases hh : tokenize1 input with
    | none => rfl
    | some tr =>
      obtain ⟨t, rest⟩ := tr
      cases t
      case eof => rfl
      case kw k =>
        cases k
        case Load =>
          dsimp only
          have hr : rest.length < input.length := (tokenize1_length _ _ _ hh).2 (by simp)
          cases hp : parse_load_stmt rest with
          | none => rfl
          | some sr =>
            obtain ⟨stmt, rest₂⟩ := sr
            dsimp only
            have := parse_load_stmt_length _ _ _ hp
            exact parse_loop_congr f₁ f₂ rest₂ _ (by omega) (by omega)
        all_goals rfl
      all_goals rfl

/-- Statements accumulated by the statement loop all carry non-empty symbol
lists, because each comes from `parse_load_stmt`. -/
lemma parse_loop_load_symbols :
    ∀ (fuel : Nat) (input : List Char) (stmts : List Statement) (p : Program),
      parse_loop fuel input stmts = some p →
      (∀ st ∈ stmts, ∀ l, st = Statement.load l → l.symbols ≠ []) →
      ∀ st ∈ p.statements, ∀ l, st = Statement.load l → l.symbols ≠ []
  | 0, _, _, _, h, _ => by cases h
  | fuel + 1, input, stmts, p, h, hstmts => by
    simp only [parse_loop] at h
    split at h
    · cases h
    · rw [Option.some.injEq] at h
      subst h
      exact hstmts
    next rest heq =>
      split at h
      · cases h
      next stmt rest₂ hp =>
        refine parse_loop_load_symbols fuel rest₂ _ p h ?_
        intro st hmem l hst
        rcases List.mem_append.mp hmem with hmem | hmem
        · exact hstmts st hmem l hst
        · rw [List.mem_singleton] at hmem
          subst hmem
          cases hst
          exact parse_load_stmt_symbols_ne _ _ _ hp
    · cases h
    · cases h

/-- When the statement loop meets any keyword other than `load`, the whole
parse fails, whatever statements were already accumulated. -/
lemma parse_loop_other_keyword (fuel : Nat) (input : List Char)
    (stmts : List Statement) (k : Keyword) (rest : List Char)
    (h : tokenize1 input = some (Token.kw k, rest)) (hk : k ≠ Keyword.Load) :
    parse_loop fuel input stmts = none := by
  cases fuel with
  | zero => rfl
  | succ fuel =>
    simp only [parse_loop]
    rw [h]
    cases k
    case Load => exact absurd rfl hk
    all_goals rfl

/-! ### Supporting lemmas: character classes and the skip loop -/

lemma is_alpha_not_whitespace (c : Char) (h : is_alpha c = true) :
    is_whitespace c = false := by
  cases hw : is_whitespace c
  · rfl
  · exfalso
    have hc : ((c = ' ' ∨ c = '\t') ∨ c = '\n') ∨ c = '\r' := by
      simpa [is_whitespace] using hw
    rcases hc with ((rfl | rfl) | rfl) | rfl <;> exact absurd h (by decide)

lemma is_alpha_ne_hash (c : Char) (h : is_alpha c = true) : c ≠ '#' := by
  rintro rfl
  exact absurd h (by decide)

lemma is_alpha_ne_quote (c : Char) (h : is_alpha c = true) : c ≠ '"' := by
  rintro rfl
  exact absurd h (by decide)

/-- The skip loop does not move past a character that is neither whitespace
nor the start of a comment. -/
lemma skip_cw_cons_of_other (c : Char) (t : List Char) (hw : is_whitespace c = false)
    (hh : c ≠ '#') : skip_cw false (c :: t) = c :: t := by
  simp [skip_cw, hw, hh]

lemma take3_ne_quotes (c : Char) (r : List Char) (hc : c ≠ '"') :
    (c :: r).take 3 ≠ ['"', '"', '"'] := by
  intro h
  have h' : c :: r.take 2 = ['"', '"', '"'] := h
  injection h' with h1 _
  exact hc h1

lemma takeWhile_all_eq (p : Char → Bool) :
    ∀ l : List Char, l.all p = true → l.takeWhile p = l ∧ l.dropWhile p = []
  | [], _ => ⟨rfl, rfl⟩
  | a :: t, h => by
    obtain ⟨ha, ht⟩ : p a = true ∧ t.all p = true := by simpa using h
    rw [List.takeWhile_cons_of_pos ha, List.dropWhile_cons_of_pos ha]
    have ih := takeWhile_all_eq p t ht
    exact ⟨by rw [ih.1], ih.2⟩

/-- Scanning with `p` over `s ++ c :: r` where every element of `s` satisfies
`p` and `c` does not: the scan takes exactly `s` and stops at `c`. -/
lemma takeWhile_append_eq (p : Char → Bool) :
    ∀ (s : List Char) (c : Char) (r : List Char), s.all p = true → p c = false →
      (s ++ c :: r).takeWhile p = s ∧ (s ++ c :: r).dropWhile p = c :: r
  | [], c, r, _, hc => by
    rw [List.nil_append]
    exact ⟨List.takeWhile_cons_of_neg (by simp [hc]),
      List.dropWhile_cons_of_neg (by simp [hc])⟩
  | a :: s, c, r, h, hc => by
    obtain ⟨ha, hs⟩ : p a = true ∧ s.all p = true := by simpa using h
    rw [List.cons_append, List.takeWhile_cons_of_pos ha, List.dropWhile_cons_of_pos ha]
    have ih := takeWhile_append_eq p s c r hs hc
    exact ⟨by rw [ih.1], ih.2⟩

/-- On input starting with an identifier character, `Tokenizer::tokenize`
dispatches to `tokenize_identifier`. -/
lemma tokenize1_identifier_run (c : Char) (t : List Char) (h1 : is_alpha c = true) :
    tokenize1 (c :: t) = some (tokenize_identifier (c :: t)) := by
  unfold tokenize1
  rw [show skip_comments_and_whitespace (c :: t) = c :: t from
    skip_cw_cons_of_other c t (is_alpha_not_whitespace c h1) (is_alpha_ne_hash c h1)]
  dsimp only
  rw [if_neg (take3_ne_quotes c t (is_alpha_ne_quote c h1)),
    if_neg (is_alpha_ne_quote c h1), if_pos h1]

/-- In comment state the skip loop consumes every character up to end of
input when no newline occurs. -/
lemma skip_cw_comment_tail :
    ∀ cs : List Char, cs.all (· ≠ '\n') = true → skip_cw true cs = []
  | [], _ => rfl
  | c :: t, h => by
    obtain ⟨hc, ht⟩ : (c ≠ '\n') ∧ t.all (· ≠ '\n') = true := by simpa using h
    simp only [skip_cw, if_neg hc]
    exact skip_cw_comment_tail t ht

/-- In comment state the skip loop consumes up to and past the next newline
and resumes normal skipping. -/
lemma skip_cw_comment_endline :
    ∀ (cs r : List Char), cs.all (· ≠ '\n') = true →
      skip_cw true (cs ++ '\n' :: r) = skip_cw false r
  | [], r, _ => by simp [skip_cw]
  | c :: t, r, h => by
    obtain ⟨hc, ht⟩ : (c ≠ '\n') ∧ t.all (· ≠ '\n') = true := by simpa using h
    simp only [List.cons_append, skip_cw, if_neg hc]
    exact skip_cw_comment_endline t r ht

/-- Input made only of whitespace characters and `#` line comments (possibly
a final comment unterminated by a newline) is skipped entirely. -/
lemma skip_cw_ws_comment_blocks :
    ∀ (blocks : List (List Char)) (final : List Char),
      (∀ b ∈ blocks, (∃ w, b = [w] ∧ is_whitespace w = true) ∨
        (∃ cs, b = '#' :: cs ++ ['\n'] ∧ cs.all (· ≠ '\n') = true)) →
      (final = [] ∨ ∃ cs, final = '#' :: cs ∧ cs.all (· ≠ '\n') = true) →
      skip_cw false (blocks.flatten ++ final) = []
  | [], final, _, hf => by
    rcases hf with rfl | ⟨cs, rfl, hcs⟩
    · rfl
    · simp only [List.flatten_nil, List.nil_append, skip_cw]
      rw [if_neg (by decide), if_pos trivial]
      exact skip_cw_comment_tail cs hcs
  | b :: bs, final, hb, hf => by
    have htail := skip_cw_ws_comment_blocks bs final
      (fun x hx => hb x (List.mem_cons_of_mem b hx)) hf
    rcases hb b (List.mem_cons_self b bs) with ⟨w, rfl, hw⟩ | ⟨cs, rfl, hcs⟩
    · rw [List.flatten_cons, List.singleton_append, List.cons_append]
      simp only [skip_cw, if_pos hw]
      exact htail
    · rw [List.flatten_cons]
      have harr : (('#' :: cs ++ ['\n']) ++ bs.flatten) ++ final =
          '#' :: (cs ++ '\n' :: (bs.flatten ++ final)) := by
        simp [List.append_assoc]
      rw [harr]
      simp only [skip_cw]
      rw [if_neg (by decide), if_pos trivial]
      rw [skip_cw_comment_endline cs _ hcs]
      exact htail

/-! ### Supporting lemmas: shape of produced punctuator tokens -/

lemma punctuator_table_no_dse :
    ∀ sp ∈ punctuator_table, sp.2 ≠ Punctuator.DoubleSlashEquals := by decide

/-- Every punctuator token produced by a single `Tokenizer::tokenize` call
is the value of some entry of the punctuator table. -/
lemma tokenize1_punct_shape (input : List Char) (p : Punctuator) (rest : List Char)
    (h : tokenize1 input = some (Token.punct p, rest)) :
    ∃ sp ∈ punctuator_table, sp.2 = p := by
  unfold tokenize1 at h
  split at h
  · rw [Option.some.injEq, Prod.mk.injEq] at h
    exact absurd h.1 (by simp)
  next c cs heq =>
    split at h
    · unfold tokenize_multiline_string at h
      rw [Option.map_eq_some'] at h
      obtain ⟨vr, -, heq2⟩ := h
      rw [Prod.mk.injEq] at heq2
      exact absurd heq2.1 (by simp)
    · split at h
      · unfold tokenize_string at h
        split at h
        · rw [Option.some.injEq, Prod.mk.injEq] at h
          exact absurd h.1 (by simp)
        · cases h
      · split at h
        · rw [Option.some.injEq] at h
          have hfst := congrArg Prod.fst h
          simp only [tokenize_identifier] at hfst
          split at hfst
          · exact absurd hfst (by simp)
          · exact absurd hfst (by simp)
        · unfold tokenize_punctuator at h
          split at h
          next sp heq2 =>
            rw [Option.some.injEq, Prod.mk.injEq] at h
            obtain ⟨h1, -⟩ := h
            rw [Token.punct.injEq] at h1
            exact ⟨sp, List.mem_of_find?_eq_some heq2, h1⟩
          · cases h

/-- Collected token sequences never contain `DoubleSlashEquals`: its spelling
is absent from the punctuator table. -/
lemma tokenize_go_no_dse :
    ∀ (fuel : Nat) (input : List Char) (tokens : List Token),
      tokenize_go fuel input = some tokens →
      Token.punct Punctuator.DoubleSlashEquals ∉ tokens
  | 0, _, _, h => by cases h
  | fuel + 1, input, tokens, h => by
    simp only [tokenize_go] at h
    cases heq : tokenize1 input with
    | none => rw [heq] at h; cases h
    | some tr =>
      obtain ⟨t, rest⟩ := tr
      rw [heq] at h
      cases t
      case eof =>
        dsimp only at h
        rw [Option.some.injEq] at h
        subst h
        exact List.not_mem_nil _
      case punct p =>
        dsimp only at h
        rw [Option.map_eq_some'] at h
        obtain ⟨ts, hts, rfl⟩ := h
        intro hmem
        rcases List.mem_cons.mp hmem with heq2 | hmem
        · cases heq2
          obtain ⟨sp, hsp, hval⟩ := tokenize1_punct_shape input _ rest heq
          exact punctuator_table_no_dse sp hsp hval
        · exact tokenize_go_no_dse fuel rest ts hts hmem
      all_goals
        dsimp only at h
        rw [Option.map_eq_some'] at h
        obtain ⟨ts, hts, rfl⟩ := h
        intro hmem
        rcases List.mem_cons.mp hmem with heq2 | hmem
        · exact Token.noConfusion heq2
        · exact tokenize_go_no_dse fuel rest ts hts hmem

/-! ### Claim theorems -/

/-- C1: the load-statement grammar documented in parser.h
(`'(' string {',' [identifier '='] string} [','] ')'`) admits an optional
trailing comma, but the implementation of `Parser::parse_load_stmt` rejects
it: after a comma it insists on another symbol, so `load("m", "a",)` fails
to parse even though `load("m", "a")` succeeds. -/
theorem load_trailing_comma_rejected :
    parse "load(\"m\", \"a\",)".data = none ∧
    parse "load(\"m\", \"a\")".data =
      some (Program.mk [Statement.load (LoadStmt.mk "m".data [("a".data, "a".data)])]) :=
  ⟨by decide, by decide⟩

/-- C2: each of the 40 spellings in the punctuator table tokenizes, alone,
to exactly the one corresponding punctuator token, and in particular the
longest match wins on `<<=` (a single `LShiftEquals`, not
`Less, Less, Equals`). -/
theorem punctuator_single_token :
    (∀ sp ∈ punctuator_table, tokenize_all sp.1 = some [Token.punct sp.2]) ∧
    tokenize_all ['<', '<', '='] = some [Token.punct Punctuator.LShiftEquals] :=
  ⟨by decide, by decide⟩

theorem punctuator_single_token_witness :
    tokenize_all ['/', '/'] = some [Token.punct Punctuator.DoubleSlash] :=
  punctuator_single_token.1 (['/', '/'], Punctuator.DoubleSlash) (by decide)

/-- C3: the two parser test cases — a load with two plain string symbols
produces pairs with equal local and exported names, and `foo = "cc_library"`
produces the pair `("foo", "cc_library")`; in general the symbol loop turns
a symbol spelled only as a string `v` into the pair `(v, v)`. -/
theorem parser_test_cases :
    parse "load(\"@rules_cc//cc:defs.bzl\", \"cc_library\", \"cc_test\")".data =
      some (Program.mk [Statement.load (LoadStmt.mk "@rules_cc//cc:defs.bzl".data
        [("cc_library".data, "cc_library".data), ("cc_test".data, "cc_test".data)])]) ∧
    parse "load(\"@rules_cc//cc:defs.bzl\", foo = \"cc_library\")".data =
      some (Program.mk [Statement.load (LoadStmt.mk "@rules_cc//cc:defs.bzl".data
        [("foo".data, "cc_library".data)])]) ∧
    ∀ (fuel : Nat) (input : List Char) (symbols : List (List Char × List Char))
      (v rest rest₂ : List Char),
      tokenize1 input = some (Token.punct Punctuator.Comma, rest) →
      tokenize1 rest = some (Token.str v, rest₂) →
      parse_symbols (fuel + 1) input symbols = parse_symbols fuel rest₂ (symbols ++ [(v, v)]) := by
  refine ⟨by decide, by decide, ?_⟩
  intro fuel input symbols v rest rest₂ h₁ h₂
  simp only [parse_symbols]
  rw [h₁]
  dsimp only
  rw [h₂]

theorem parser_test_cases_witness :
    parse_symbols 1 ",\"a\")".data [] = parse_symbols 0 ")".data [("a".data, "a".data)] :=
  parser_test_cases.2.2 0 ",\"a\")".data [] "a".data "\"a\")".data ")".data
    (by decide) (by decide)

/-- C4: every `LoadStmt` in a successfully parsed `Program` has a non-empty
symbol list, and loads importing zero symbols are rejected. -/
theorem load_symbols_nonempty :
    (∀ (input : List Char) (p : Program), parse input = some p →
      ∀ st ∈ p.statements, ∀ l, st = Statement.load l → l.symbols ≠ []) ∧
    parse "load()".data = none ∧
    parse "load(\"m\")".data = none := by
  refine ⟨?_, by decide, by decide⟩
  intro input p hp
  refine parse_loop_load_symbols _ input [] p hp ?_
  intro st hst
  cases hst

theorem load_symbols_nonempty_witness :
    ∀ st ∈ (Program.mk
        [Statement.load (LoadStmt.mk "m".data [("a".data, "a".data)])]).statements,
      ∀ l, st = Statement.load l → l.symbols ≠ [] :=
  load_symbols_nonempty.1 "load(\"m\", \"a\")".data _ (by decide)

/-- C5: whenever the statement loop meets a keyword other than `load`, the
whole parse fails regardless of the statements already accumulated; in
particular `pass` alone fails, and a valid load statement followed by
`pass` also fails with no partial program. -/
theorem unsupported_keyword_fails :
    (∀ (fuel : Nat) (input : List Char) (stmts : List Statement) (k : Keyword)
      (rest : List Char),
      tokenize1 input = some (Token.kw k, rest) → k ≠ Keyword.Load →
      parse_loop fuel input stmts = none) ∧
    parse "pass".data = none ∧
    parse "load(\"m\", \"a\") pass".data = none := by
  refine ⟨?_, by decide, by decide⟩
  intro fuel input stmts k rest h hk
  exact parse_loop_other_keyword fuel input stmts k rest h hk

theorem unsupported_keyword_fails_witness :
    parse_loop 1 "pass".data [] = none :=
  unsupported_keyword_fails.1 1 "pass".data [] Keyword.Pass [] (by decide) (by decide)

/-- C6: a non-empty run whose first character is alphabetic or underscore
and whose remaining characters are alphanumeric or underscore tokenizes,
alone, to exactly one token: the matching keyword if the run exactly equals
a reserved word, otherwise an identifier carrying the run itself. -/
theorem identifier_run_single_token (c : Char) (t : List Char)
    (h1 : is_alpha c = true) (h2 : t.all is_ident_char = true) :
    (keyword_of (c :: t) = none →
      tokenize_all (c :: t) = some [Token.ident (c :: t)]) ∧
    (∀ k, keyword_of (c :: t) = some k →
      tokenize_all (c :: t) = some [Token.kw k]) := by
  have hall : (c :: t).all is_ident_char = true := by
    simp only [List.all_cons, Bool.and_eq_true]
    exact ⟨by simp [is_ident_char, h1], h2⟩
  have hid := takeWhile_all_eq is_ident_char (c :: t) hall
  have htok := tokenize1_identifier_run c t h1
  unfold tokenize_identifier at htok
  rw [hid.1, hid.2] at htok
  have hgo : ∀ tok, tokenize1 (c :: t) = some (tok, []) → tok ≠ Token.eof →
      tokenize_all (c :: t) = some [tok] := by
    intro tok htok' hne
    unfold tokenize_all
    rw [List.length_cons]
    simp only [tokenize_go]
    rw [htok']
    cases tok
    case eof => exact absurd rfl hne
    all_goals rfl
  constructor
  · intro hk
    rw [hk] at htok
    exact hgo _ htok (by simp)
  · intro k hk
    rw [hk] at htok
    exact hgo _ htok (by simp)

theorem identifier_run_single_token_witness :
    tokenize_all "load2".data = some [Token.ident "load2".data] :=
  (identifier_run_single_token 'l' "oad2".data (by decide) (by decide)).1 (by decide)

/-- C7: tokenization fails on an unterminated string and on an unterminated
multiline string; a terminated string's value is exactly the characters
between the quote delimiters, with no escape processing (shown in general
for single-quoted strings and on a concrete multiline string containing a
newline). -/
theorem string_literal_verbatim :
    tokenize_all "\"abc".data = none ∧
    tokenize_all "\"\"\"abc".data = none ∧
    (∀ (s rest : List Char), s.all (· ≠ '"') = true →
      ('"' :: (s ++ '"' :: rest)).take 3 ≠ ['"', '"', '"'] →
      tokenize1 ('"' :: (s ++ '"' :: rest)) = some (Token.str s, rest)) ∧
    tokenize_all "\"\"\"ab\ncd\"\"\"".data = some [Token.str "ab\ncd".data] := by
  refine ⟨by decide, by decide, ?_, by decide⟩
  intro s rest hs hne
  unfold tokenize1
  rw [show skip_comments_and_whitespace ('"' :: (s ++ '"' :: rest)) =
      '"' :: (s ++ '"' :: rest) from
    skip_cw_cons_of_other _ _ (by decide) (by decide)]
  dsimp only
  rw [if_neg hne, if_pos rfl]
  unfold tokenize_string
  rw [(takeWhile_append_eq (· ≠ '"') s '"' rest hs (by decide)).1,
    (takeWhile_append_eq (· ≠ '"') s '"' rest hs (by decide)).2]
  rfl

theorem string_literal_verbatim_witness :
    tokenize1 ('"' :: ("abc".data ++ '"' :: [])) = some (Token.str "abc".data, []) :=
  string_literal_verbatim.2.2.1 "abc".data [] (by decide) (by decide)

/-- C8: the tokenizer never produces `DoubleSlashEquals` — its spelling
`//=` is absent from the punctuator table even though the enum defines it —
and the input `//=` tokenizes to `DoubleSlash` followed by `Equals`. -/
theorem no_double_slash_equals :
    (∀ (input : List Char) (tokens : List Token), tokenize_all input = some tokens →
      Token.punct Punctuator.DoubleSlashEquals ∉ tokens) ∧
    tokenize_all "//=".data =
      some [Token.punct Punctuator.DoubleSlash, Token.punct Punctuator.Equals] := by
  refine ⟨?_, by decide⟩
  intro input tokens h
  exact tokenize_go_no_dse _ input tokens h

theorem no_double_slash_equals_witness :
    Token.punct Punctuator.DoubleSlashEquals ∉
      [Token.punct Punctuator.DoubleSlash, Token.punct Punctuator.Equals] :=
  no_double_slash_equals.1 "//=".data _ (by decide)

/-- C9: tokenizing the empty string yields the empty token sequence, and so
does any input made only of whitespace characters and `#` line comments
alternating in any order (a final comment may be unterminated). -/
theorem whitespace_comments_empty :
    tokenize_all [] = some [] ∧
    ∀ (blocks : List (List Char)) (final : List Char),
      (∀ b ∈ blocks, (∃ w, b = [w] ∧ is_whitespace w = true) ∨
        (∃ cs, b = '#' :: cs ++ ['\n'] ∧ cs.all (· ≠ '\n') = true)) →
      (final = [] ∨ ∃ cs, final = '#' :: cs ∧ cs.all (· ≠ '\n') = true) →
      tokenize_all (blocks.flatten ++ final) = some [] := by
  refine ⟨by decide, ?_⟩
  intro blocks final hb hf
  have hskip := skip_cw_ws_comment_blocks blocks final hb hf
  have htok : tokenize1 (blocks.flatten ++ final) = some (Token.eof, []) := by
    unfold tokenize1 skip_comments_and_whitespace
    rw [hskip]
  unfold tokenize_all
  simp only [tokenize_go]
  rw [htok]

theorem whitespace_comments_empty_witness :
    tokenize_all ([[' '], ['#', 'a', '\n'], ['\t']].flatten ++ ['#', 'x']) = some [] :=
  whitespace_comments_empty.2 [[' '], ['#', 'a', '\n'], ['\t']] ['#', 'x']
    (by
      intro b hb
      simp only [List.mem_cons, List.not_mem_nil, or_false] at hb
      rcases hb with rfl | rfl | rfl
      · exact Or.inl ⟨' ', rfl, rfl⟩
      · exact Or.inr ⟨['a'], rfl, rfl⟩
      · exact Or.inl ⟨'\t', rfl, rfl⟩)
    (Or.inr ⟨['x'], rfl, rfl⟩)

/-- C10: each single-token call either fails, returns `Eof`, or strictly
advances the cursor, and the cursor never retreats nor passes the end of
input; consequently the collection loop of `tokenize` and the statement
loop of `Parser::parse` are insensitive to any fuel beyond the input
length — they always reach `Eof` or a failure first, so both terminate on
every finite input. -/
theorem tokenize_parse_progress :
    (∀ (input : List Char) (t : Token) (rest : List Char),
      tokenize1 input = some (t, rest) →
      rest.length ≤ input.length ∧ (t ≠ Token.eof → rest.length < input.length)) ∧
    (∀ (fuel : Nat) (input : List Char), input.length < fuel →
      tokenize_go fuel input = tokenize_all input) ∧
    (∀ (fuel : Nat) (input : List Char) (stmts : List Statement), input.length < fuel →
      parse_loop fuel input stmts = parse_loop (input.length + 1) input stmts) := by
  refine ⟨tokenize1_length, ?_, ?_⟩
  · intro fuel input h
    exact tokenize_go_congr fuel (input.length + 1) input h (Nat.lt_succ_self _)
  · intro fuel input stmts h
    exact parse_loop_congr fuel (input.length + 1) input stmts h (Nat.lt_succ_self _)

theorem tokenize_parse_progress_witness :
    ([] : List Char).length ≤ ['+'].length ∧
      (Token.punct Punctuator.Plus ≠ Token.eof → ([] : List Char).length < ['+'].length) :=
  tokenize_parse_progress.1 ['+'] (Token.punct Punctuator.Plus) [] (by decide)

end Starlark
